import Mathlib

/-!
Shallow embedding of the FAISS-backed vector store of the fashion_clip
repository (`backend/fashion-clip-api/models/faiss_manager.py`) and of the
outfit-recommendation aggregation in
`backend/fashion-clip-api/services/item_service.py`.

Modelling conventions:

* Python floats are modelled as rationals (`ℚ`).  `np.linalg.norm` is the
  square root of the sum of squares; since square roots are not closed over
  the rationals, every definition that needs the norm is parametrised by an
  arbitrary function `sqrt : ℚ → ℚ`.  All theorems are proved for every such
  function, hence in particular for the real square root.
* Python dicts become association lists together with `lookupKey` / `setKey`
  / `eraseKey`, which agree with dict lookup / assignment / `del` on states
  whose key lists are duplicate-free (true of all states the store's own
  operations produce).
* The external `faiss.IndexFlatIP` object is the list of stored vectors
  (`ntotal` is its length); `index.search` is modelled by `indexSearch`,
  which scores every physical slot by inner product with the query and
  returns the `search_k` best in descending order.  FAISS ids are `Int`
  so that the source's `faiss_id == -1` guard is representable.
* Python truthiness of optional strings (`if not item_id: ...`) is
  `getTruthy` / `strTruthy`; truthiness of an optional category list is
  folded into the `catReject` guard below.
* Exceptions become `Except` / `Option` results.  Mutating operations also
  return the in-memory state as it is at the moment of a raise, together
  with the on-disk state (`Disk`), so that "rejected before any mutation"
  and "no persistence write" claims are statable.
-/

namespace FashionClip

/-- Embedding vectors: Python float arrays modelled over `ℚ`. -/
abbrev Vec := List ℚ

/-- Inner product of two vectors (`np.dot` on equal-length arrays). -/
def dot (u v : Vec) : ℚ :=
  (List.zipWith (fun a b => a * b) u v).sum

/-- Sum of squares: the square of `np.linalg.norm v`. -/
def normSq (v : Vec) : ℚ :=
  dot v v

/-- `faiss_manager.py` lines 127-129 and 181-183: compute
`norm = np.linalg.norm(embedding)` and divide by it when it is positive; a
zero-norm vector is left untouched.  The square root is the abstract
parameter `sqrt`. -/
def normalizeWith (sqrt : ℚ → ℚ) (v : Vec) : Vec :=
  let n := sqrt (normSq v)
  if 0 < n then v.map (fun x => x / n) else v

/-- One stored metadata dict.  The named fields are the keys
`item_service.py` line 93-100 writes; `extra` is the spread of any further
caller-supplied key/value pairs. -/
structure Metadata where
  item_id : Option String := none
  user_id : Option String := none
  category : Option String := none
  image_url : Option String := none
  name : Option String := none
  extra : List (String × String) := []
deriving DecidableEq, Repr

/-- Python truthiness of an optional string: `None` and `""` are falsy.
`getTruthy o = some s` exactly when the Python value is truthy, returning
the string itself. -/
def getTruthy : Option String → Option String
  | none => none
  | some s => if s = "" then none else some s

/-- `strTruthy o = true` iff the Python optional-string value is truthy. -/
def strTruthy (o : Option String) : Bool :=
  (getTruthy o).isSome

/-- Dict lookup on an association list (`d.get(a)` / `a in d`). -/
def lookupKey {α β : Type} [BEq α] (a : α) : List (α × β) → Option β
  | [] => none
  | (k, b) :: es => if k == a then some b else lookupKey a es

/-- Dict deletion `del d[a]` (removes every binding of the key; identical to
the Python behaviour on duplicate-free key lists). -/
def eraseKey {α β : Type} [BEq α] (a : α) (l : List (α × β)) : List (α × β) :=
  l.filter (fun p => !(p.1 == a))

/-- Dict assignment `d[a] = b` (replaces any previous binding of the key). -/
def setKey {α β : Type} [BEq α] (a : α) (b : β) (l : List (α × β)) : List (α × β) :=
  eraseKey a l ++ [(a, b)]

/-- In-memory state of `FAISSManager`: the FAISS index (list of stored
vectors, slot id = physical position), the slot-id → metadata dict, the
item-id → slot-id reverse dict, and the `next_id` counter. -/
structure FAISSManager where
  index : List Vec
  metadata : List (Int × Metadata)
  item_id_to_faiss_id : List (String × Int)
  next_id : Int
deriving DecidableEq, Repr

/-- Contents of the pickled metadata artifact (`faiss_index.metadata.pkl`). -/
structure MetaSnapshot where
  metadata : List (Int × Metadata)
  item_id_to_faiss_id : List (String × Int)
deriving DecidableEq, Repr

/-- On-disk state.  `indexFile` is the FAISS artifact (`none` = file does
not exist).  `metaFile` is the metadata artifact: `none` = file does not
exist, `some none` = file exists but `pickle.load` raises (unreadable),
`some (some snap)` = readable with contents `snap`. -/
structure Disk where
  indexFile : Option (List Vec)
  metaFile : Option (Option MetaSnapshot)
deriving DecidableEq, Repr

/-- The store as `__init__` builds it before loading: fresh empty index,
empty dicts, counter at zero. -/
def emptyManager : FAISSManager :=
  { index := [], metadata := [], item_id_to_faiss_id := [], next_id := 0 }

/-- `_save_index` (lines 77-94): overwrite both artifacts with the current
in-memory state. -/
def save_index (m : FAISSManager) (_d : Disk) : Disk :=
  { indexFile := some m.index,
    metaFile := some (some { metadata := m.metadata,
                             item_id_to_faiss_id := m.item_id_to_faiss_id }) }

/-- `_load_index` (lines 51-75).  No index artifact: stay fresh.  Index
artifact present: load it and set `next_id = ntotal`; then, if the metadata
artifact exists, unpickle it — a raise anywhere in the `try` block is caught
and resets everything to a fresh empty store, while a *missing* metadata
artifact merely leaves the two dicts at their initial empty value. -/
def load_index (d : Disk) : FAISSManager :=
  match d.indexFile with
  | none => emptyManager
  | some vecs =>
    match d.metaFile with
    | some none => emptyManager
    | some (some snap) =>
      { index := vecs, metadata := snap.metadata,
        item_id_to_faiss_id := snap.item_id_to_faiss_id,
        next_id := (vecs.length : Int) }
    | none =>
      { index := vecs, metadata := [], item_id_to_faiss_id := [],
        next_id := (vecs.length : Int) }

/-- Errors of the mutating operations: `invalidInput` is the
`ValueError("metadata must include 'item_id'")` raise; `keyError` is the
`KeyError` a `del` on an absent key would raise inside
`_remove_by_faiss_id` (unreachable from consistent states). -/
inductive StoreErr
  | invalidInput
  | keyError
deriving DecidableEq, Repr

/-- `_remove_by_faiss_id` (lines 261-267): if the slot is in the metadata
dict, read its `item_id`; when that is truthy, `del` the reverse entry
(raising `KeyError` — modelled as `none` — if absent) and then `del` the
metadata entry.  On a raise the state is unchanged, since the metadata
deletion comes last. -/
def remove_by_faiss_id (m : FAISSManager) (fid : Int) : Option FAISSManager :=
  match lookupKey fid m.metadata with
  | none => some m
  | some md =>
    match getTruthy md.item_id with
    | some iid =>
      match lookupKey iid m.item_id_to_faiss_id with
      | none => none
      | some _ =>
        some { m with item_id_to_faiss_id := eraseKey iid m.item_id_to_faiss_id,
                      metadata := eraseKey fid m.metadata }
    | none =>
      some { m with metadata := eraseKey fid m.metadata }

/-- `add_item` (lines 96-144).  Requires a truthy `metadata['item_id']`;
logically removes any existing live slot of the same item id; normalizes
the embedding; appends it at slot `next_id`; records both dict entries;
bumps the counter; saves.  Returns the raise (with untouched state) or the
assigned FAISS id with the new in-memory and on-disk state. -/
def add_item (sqrt : ℚ → ℚ) (m : FAISSManager) (d : Disk)
    (embedding : Vec) (md : Metadata) :
    Except StoreErr Int × FAISSManager × Disk :=
  match getTruthy md.item_id with
  | none => (.error .invalidInput, m, d)
  | some iid =>
    let step1 : Option FAISSManager :=
      match lookupKey iid m.item_id_to_faiss_id with
      | some fid => remove_by_faiss_id m fid
      | none => some m
    match step1 with
    | none => (.error .keyError, m, d)
    | some m1 =>
      let emb := normalizeWith sqrt embedding
      let fid := m1.next_id
      let m2 : FAISSManager :=
        { index := m1.index ++ [emb],
          metadata := setKey fid md m1.metadata,
          item_id_to_faiss_id := setKey iid fid m1.item_id_to_faiss_id,
          next_id := m1.next_id + 1 }
      (.ok fid, m2, save_index m2 d)

/-- `remove_item` (lines 237-259): `False` when the item id has no live
slot; otherwise tear down via `_remove_by_faiss_id`, save, return `True`. -/
def remove_item (m : FAISSManager) (d : Disk) (item_id : String) :
    Except StoreErr Bool × FAISSManager × Disk :=
  match lookupKey item_id m.item_id_to_faiss_id with
  | none => (.ok false, m, d)
  | some fid =>
    match remove_by_faiss_id m fid with
    | none => (.error .keyError, m, d)
    | some m1 => (.ok true, m1, save_index m1 d)

/-- One search hit: the `{'item_id': ..., 'similarity': ..., **metadata}`
dict of line 224-228, as a structured record (the spread metadata kept
whole in the `metadata` field). -/
structure SearchResult where
  item_id : String
  similarity : ℚ
  metadata : Metadata
deriving DecidableEq, Repr

/-- Line 213: `if filter_user_id and metadata.get('user_id') != filter_user_id`. -/
def ownerReject (fu : Option String) (u : Option String) : Bool :=
  strTruthy fu && decide (u ≠ fu)

/-- Line 216: `if filter_categories and metadata.get('category') not in
filter_categories`.  A `None` or empty list is falsy and deactivates the
filter. -/
def catReject (fc : Option (List String)) (c : Option String) : Bool :=
  match fc with
  | none => false
  | some cats => !cats.isEmpty && !(decide (c ∈ cats.map some))

/-- The per-candidate filter chain of the loop body (lines 200-222): skip on
`faiss_id == -1`, on missing metadata, on falsy or already-seen item id, on
the owner filter, on the category filter and on the similarity floor;
otherwise accept, yielding the item id and its metadata. -/
def candDecision (fu : Option String) (fc : Option (List String)) (ms : ℚ)
    (tab : List (Int × Metadata)) (seen : List String)
    (dist : ℚ) (fid : Int) : Option (String × Metadata) :=
  if fid = -1 then none
  else
    match lookupKey fid tab with
    | none => none
    | some md =>
      match getTruthy md.item_id with
      | none => none
      | some iid =>
        if iid ∈ seen then none
        else if ownerReject fu md.user_id then none
        else if catReject fc md.category then none
        else if dist < ms then none
        else some (iid, md)

/-- The candidate walk of `search` (lines 199-233): process candidates in
order; on accept, append the result, add the id to the seen set, and stop
as soon as `len(results) >= k`. -/
def searchLoop (k : Nat) (fu : Option String) (fc : Option (List String))
    (ms : ℚ) (tab : List (Int × Metadata)) :
    List (ℚ × Int) → List String → List SearchResult → List SearchResult
  | [], _, results => results
  | (dist, fid) :: rest, seen, results =>
    match candDecision fu fc ms tab seen dist fid with
    | none => searchLoop k fu fc ms tab rest seen results
    | some (iid, md) =>
      let results2 := results ++ [⟨iid, dist, md⟩]
      if k ≤ results2.length then results2
      else searchLoop k fu fc ms tab rest (iid :: seen) results2

/-- Descending insertion by score (stable: equal scores keep earlier slot
ids first, matching the exhaustive flat-index scan). -/
def insertDesc (x : ℚ × Int) : List (ℚ × Int) → List (ℚ × Int)
  | [] => [x]
  | y :: ys => if y.1 < x.1 then x :: y :: ys else y :: insertDesc x ys

/-- `self.index.search(query, search_k)` on a flat inner-product index:
score every physical slot against the query and return the best `sk`
`(distance, faiss_id)` pairs in descending score order. -/
def indexSearch (index : List Vec) (q : Vec) (sk : Nat) : List (ℚ × Int) :=
  (((List.range index.length).map
      (fun i => (dot q (index.getD i []), (i : Int)))).foldr insertDesc []).take sk

/-- `search` (lines 146-235).  Empty physical index short-circuits to `[]`.
Otherwise normalize the query, compute `search_k = min(k*5, ntotal)` with
the `min(100, ntotal)` fallback when that is zero, fetch candidates,
pre-seed the seen set with a truthy `exclude_item_id`, and walk the
candidates. -/
def search (sqrt : ℚ → ℚ) (m : FAISSManager) (query_embedding : Vec) (k : Nat)
    (filter_user_id : Option String) (filter_categories : Option (List String))
    (exclude_item_id : Option String) (min_similarity : ℚ) : List SearchResult :=
  if m.index.length = 0 then []
  else
    let q := normalizeWith sqrt query_embedding
    let search_k0 := min (k * 5) m.index.length
    let search_k := if search_k0 = 0 then min 100 m.index.length else search_k0
    let cands := indexSearch m.index q search_k
    let seen0 : List String :=
      match getTruthy exclude_item_id with
      | some e => [e]
      | none => []
    searchLoop k filter_user_id filter_categories min_similarity
      m.metadata cands seen0 []

/-- The `search` method with its (absent) state effects made explicit: the
method body contains no assignment to any `self` field and no
`_save_index` call, so its state-threaded embedding returns the in-memory
and on-disk state it received. -/
def searchM (sqrt : ℚ → ℚ) (m : FAISSManager) (d : Disk) (q : Vec) (k : Nat)
    (fu : Option String) (fc : Option (List String)) (ex : Option String)
    (ms : ℚ) : List SearchResult × FAISSManager × Disk :=
  (search sqrt m q k fu fc ex ms, m, d)

/-- Componentwise vector addition (numpy `+` on equal-shape arrays). -/
def vecAdd (u v : Vec) : Vec :=
  List.zipWith (fun a b => a + b) u v

/-- `sum(embeddings)` for a nonempty list of equal-length vectors. -/
def vecSum : List Vec → Vec
  | [] => []
  | v :: vs => vs.foldl vecAdd v

/-- Scalar multiple of a vector. -/
def vecScale (a : ℚ) (v : Vec) : Vec :=
  v.map (fun x => a * x)

/-- A base-item record as fetched from the `clothes` table: the fields
`get_outfit_recommendations` reads. -/
structure ItemRecord where
  id : String
  category : String
  image_url : Option String
deriving DecidableEq, Repr

/-- Errors of `get_outfit_recommendations`: no base items found, or no base
item yielded an embedding. -/
inductive OutfitErr
  | noBaseItems
  | noEmbeddings
deriving DecidableEq, Repr

/-- The `category_map` dict of `item_service.py` lines 246-251. -/
def category_map : List (String × List String) :=
  [("top", ["bottom", "shoes", "outerwear"]),
   ("bottom", ["top", "shoes", "outerwear"]),
   ("dress", ["shoes", "outerwear"]),
   ("outerwear", ["top", "bottom", "shoes"])]

/-- `category_map.get(cat, ['top', 'bottom', 'shoes'])`. -/
def categoryMapGet (c : String) : List String :=
  (lookupKey c category_map).getD ["top", "bottom", "shoes"]

/-- Python `set.add` / element insertion, modelled as a duplicate-free list
in insertion order (a deterministic refinement of the unordered set). -/
def setInsert (s : List String) (x : String) : List String :=
  if x ∈ s then s else s ++ [x]

/-- Python `set.update` / union. -/
def setUnion (s t : List String) : List String :=
  t.foldl setInsert s

/-- Python `set(l)`. -/
def setOfList (l : List String) : List String :=
  setUnion [] l

/-- Python set difference `s - t`. -/
def setDiff (s t : List String) : List String :=
  s.filter (fun x => !(decide (x ∈ t)))

/-- Lines 253-258: union the compatibility entries of every base category,
then subtract the base categories themselves. -/
def outfitTargets (base : List String) : List String :=
  setDiff (base.foldl (fun acc c => setUnion acc (categoryMapGet c)) []) base

/-- `get_outfit_recommendations` (lines 189-273), with its external
collaborators at the boundary: `items` are the base-item records the
Supabase query returned, and `embeds` the embeddings the embedder produced
for the fetchable images (image download and embedding are outside the
core).  `raise` on no items or no embeddings; otherwise average the
embeddings, normalize (line 240 divides without a zero-norm guard — `1/0 =
0` over `ℚ` stands in for the degenerate case), derive the target
categories, and issue one filtered search per target with similarity floor
`0.5`, keying the returned mapping by target category. -/
def get_outfit_recommendations (sqrt : ℚ → ℚ) (m : FAISSManager)
    (items : List ItemRecord) (embeds : List Vec)
    (user_id : String) (k_per_category : Nat) :
    Except OutfitErr (List (String × List SearchResult)) :=
  if items.isEmpty then .error .noBaseItems
  else if embeds.isEmpty then .error .noEmbeddings
  else
    let avg0 := vecScale (1 / (embeds.length : ℚ)) (vecSum embeds)
    let avg := vecScale (1 / sqrt (normSq avg0)) avg0
    let base := setOfList (items.map ItemRecord.category)
    let targets := outfitTargets base
    .ok (targets.map fun c =>
      (c, search sqrt m avg k_per_category (some user_id) (some [c]) none (1/2)))

/-- Mutual consistency of the two dicts (the data-model invariant of the
spec): both key lists are duplicate-free (so they are honest dicts), every
reverse entry names a metadata slot whose stored `item_id` is that same
(truthy) item identifier, and every live metadata slot's `item_id` is
truthy and maps back to the slot in the reverse dict. -/
def Inv (m : FAISSManager) : Prop :=
  (m.metadata.map Prod.fst).Nodup ∧
  (m.item_id_to_faiss_id.map Prod.fst).Nodup ∧
  (∀ p ∈ m.item_id_to_faiss_id,
      (lookupKey p.2 m.metadata).bind Metadata.item_id = some p.1) ∧
  (∀ q ∈ m.metadata,
      getTruthy q.2.item_id ≠ none ∧
      lookupKey (q.2.item_id.getD ("")) m.item_id_to_faiss_id = some q.1)

/-- Every live slot id is below the `next_id` counter — true of every state
the store's operations produce (fresh construction, load, add, remove) and
needed for `next_id` to be a genuinely fresh slot id on add. -/
def FreshId (m : FAISSManager) : Prop :=
  ∀ q ∈ m.metadata, q.1 < m.next_id

/-- Well-formed store: mutual dict consistency plus counter freshness. -/
def WF (m : FAISSManager) : Prop :=
  Inv m ∧ FreshId m

instance (m : FAISSManager) : Decidable (Inv m) := by
  unfold Inv; exact inferInstance

instance (m : FAISSManager) : Decidable (FreshId m) := by
  unfold FreshId; exact inferInstance

instance (m : FAISSManager) : Decidable (WF m) := by
  unfold WF; exact inferInstance

/-- A trivial stand-in square root for concrete witnesses (every theorem is
quantified over the square-root function, so any choice exercises it). -/
def sqrtId : ℚ → ℚ := fun x => x

/-- Concrete metadata dict with item id `x`. -/
def mdX : Metadata :=
  { item_id := some ("x"), user_id := some ("u1"), category := some ("top") }

/-- Concrete metadata dict with item id `y`. -/
def mdY : Metadata :=
  { item_id := some ("y"), user_id := some ("u1"), category := some ("bottom") }

/-- Concrete metadata dict whose `item_id` is missing. -/
def mdNoId : Metadata :=
  { user_id := some ("u1"), category := some ("top") }

/-- Concrete one-item store holding `mdX` at slot 0. -/
def storeOne : FAISSManager :=
  { index := [[1]], metadata := [(0, mdX)],
    item_id_to_faiss_id := [("x", 0)], next_id := 1 }

/-- Concrete store whose only physical slot is orphaned: zero live entries
but a nonempty FAISS index. -/
def storeOrphan : FAISSManager :=
  { index := [[1]], metadata := [], item_id_to_faiss_id := [], next_id := 1 }

/-- Concrete empty disk. -/
def disk0 : Disk :=
  { indexFile := none, metaFile := none }

/-- Concrete disk whose vector artifact holds one vector while the metadata
artifact is missing. -/
def diskMissingMeta : Disk :=
  { indexFile := some [[1]], metaFile := none }

/-- Concrete base-item list for the outfit witness. -/
def c8items : List ItemRecord :=
  [{ id := "a", category := "top", image_url := some ("u") }]

/-- The outfit recommendations computed for `c8items` over the empty store
(every target category present, each with an empty result list). -/
def c8res : List (String × List SearchResult) :=
  match get_outfit_recommendations sqrtId emptyManager c8items [[1]] ("u1") 3 with
  | .ok l => l
  | .error _ => []

/-- What every accepted search result satisfies: a truthy item id that is
the metadata's own, metadata drawn from the metadata dict, plus passage of
the owner filter, the category filter and the similarity floor. -/
def ResultOk (fu : Option String) (fc : Option (List String)) (ms : ℚ)
    (tab : List (Int × Metadata)) (r : SearchResult) : Prop :=
  r.item_id ≠ "" ∧
  r.metadata.item_id = some r.item_id ∧
  (∃ fid, lookupKey fid tab = some r.metadata) ∧
  (strTruthy fu = true → r.metadata.user_id = fu) ∧
  catReject fc r.metadata.category = false ∧
  ms ≤ r.similarity

/-- The metadata dict as it stands after `add_item` succeeds with item id
`iid`: the superseded slot (if any) erased, the new slot set. -/
def metaAfterAdd (m : FAISSManager) (iid : String) (md : Metadata) :
    List (Int × Metadata) :=
  match lookupKey iid m.item_id_to_faiss_id with
  | some fid0 => setKey m.next_id md (eraseKey fid0 m.metadata)
  | none => setKey m.next_id md m.metadata

/-- The full store state after a successful `add_item` with item id `iid`
(note `setKey` makes the pre-erasure of the reverse entry a no-op, so the
reverse dict update is unconditional). -/
def afterAdd (sqrt : ℚ → ℚ) (m : FAISSManager) (iid : String) (md : Metadata)
    (emb : Vec) : FAISSManager :=
  { index := m.index ++ [normalizeWith sqrt emb],
    metadata := metaAfterAdd m iid md,
    item_id_to_faiss_id := setKey iid m.next_id m.item_id_to_faiss_id,
    next_id := m.next_id + 1 }

/-- The store after erasing live slot `fid` (holding item id `X`). -/
def afterErase (m : FAISSManager) (X : String) (fid : Int) : FAISSManager :=
  { m with metadata := eraseKey fid m.metadata,
           item_id_to_faiss_id := eraseKey X m.item_id_to_faiss_id }

/-! Association-list (dict) lemmas. -/

theorem lookupKey_nil {α β : Type} [BEq α] (a : α) :
    lookupKey (β := β) a [] = none := rfl

theorem lookupKey_cons {α β : Type} [BEq α] (a k : α) (b : β) (l : List (α × β)) :
    lookupKey a ((k, b) :: l) = if k == a then some b else lookupKey a l := rfl

theorem lookupKey_mem {α β : Type} [BEq α] [LawfulBEq α] {a : α} {b : β}
    {l : List (α × β)} (h : lookupKey a l = some b) : (a, b) ∈ l := by
  induction l with
  | nil => simp [lookupKey] at h
  | cons p t ih =>
    obtain ⟨k, v⟩ := p
    rw [lookupKey_cons] at h
    by_cases hk : (k == a) = true
    · rw [if_pos hk] at h
      obtain rfl : v = b := by injection h
      obtain rfl : k = a := eq_of_beq hk
      exact List.mem_cons_self _ _
    · rw [if_neg hk] at h
      exact List.mem_cons_of_mem _ (ih h)

theorem mem_eraseKey {α β : Type} [BEq α] [LawfulBEq α] {p : α × β} {a : α}
    {l : List (α × β)} : p ∈ eraseKey a l ↔ p ∈ l ∧ p.1 ≠ a := by
  simp [eraseKey, List.mem_filter]

theorem lookupKey_eraseKey_self {α β : Type} [BEq α] [LawfulBEq α]
    (a : α) (l : List (α × β)) : lookupKey a (eraseKey a l) = none := by
  induction l with
  | nil => rfl
  | cons p t ih =>
    obtain ⟨k, v⟩ := p
    by_cases hk : (k == a) = true
    · simpa [eraseKey, hk] using ih
    · simpa [eraseKey, lookupKey, hk] using ih

theorem lookupKey_eraseKey_ne {α β : Type} [BEq α] [LawfulBEq α]
    {a a' : α} (h : a ≠ a') (l : List (α × β)) :
    lookupKey a (eraseKey a' l) = lookupKey a l := by
  induction l with
  | nil => rfl
  | cons p t ih =>
    obtain ⟨k, v⟩ := p
    by_cases hk : (k == a') = true
    · have hka : (k == a) = false := by
        have : k = a' := eq_of_beq hk
        subst this
        exact beq_eq_false_iff_ne.mpr fun hh => h hh.symm
      simp [eraseKey, lookupKey, hk, hka] at ih ⊢
      exact ih
    · by_cases hka : (k == a) = true
      · simp [eraseKey, lookupKey, hk, hka]
      · simp [eraseKey, lookupKey, hk, hka] at ih ⊢
        exact ih

theorem lookupKey_append {α β : Type} [BEq α] (a : α) (l1 l2 : List (α × β)) :
    lookupKey a (l1 ++ l2) =
      match lookupKey a l1 with
      | some b => some b
      | none => lookupKey a l2 := by
  induction l1 with
  | nil => rfl
  | cons p t ih =>
    obtain ⟨k, v⟩ := p
    by_cases hk : (k == a) = true
    · simp [lookupKey, hk]
    · simp [lookupKey, hk]
      exact ih

theorem lookupKey_setKey_self {α β : Type} [BEq α] [LawfulBEq α]
    (a : α) (b : β) (l : List (α × β)) :
    lookupKey a (setKey a b l) = some b := by
  rw [setKey, lookupKey_append, lookupKey_eraseKey_self]
  simp [lookupKey]

theorem lookupKey_setKey_ne {α β : Type} [BEq α] [LawfulBEq α]
    {a a' : α} (h : a ≠ a') (b : β) (l : List (α × β)) :
    lookupKey a (setKey a' b l) = lookupKey a l := by
  rw [setKey, lookupKey_append]
  rw [lookupKey_eraseKey_ne h]
  cases hl : lookupKey a l with
  | some v => rfl
  | none =>
    have : (a' == a) = false := beq_eq_false_iff_ne.mpr fun hh => h hh.symm
    simp [lookupKey, this]

theorem mem_setKey {α β : Type} [BEq α] [LawfulBEq α] {p : α × β} {a : α}
    {b : β} {l : List (α × β)} :
    p ∈ setKey a b l ↔ (p ∈ l ∧ p.1 ≠ a) ∨ p = (a, b) := by
  simp [setKey, mem_eraseKey]

theorem nodup_keys_eraseKey {α β : Type} [BEq α] {a : α} {l : List (α × β)}
    (h : (l.map Prod.fst).Nodup) : ((eraseKey a l).map Prod.fst).Nodup :=
  ((List.filter_sublist l).map Prod.fst).nodup h

theorem not_mem_keys_eraseKey {α β : Type} [BEq α] [LawfulBEq α]
    (a : α) (l : List (α × β)) : a ∉ (eraseKey a l).map Prod.fst := by
  intro h
  obtain ⟨p, hp, hpa⟩ := List.mem_map.mp h
  exact (mem_eraseKey.mp hp).2 hpa

theorem nodup_keys_setKey {α β : Type} [BEq α] [LawfulBEq α]
    {a : α} {b : β} {l : List (α × β)} (h : (l.map Prod.fst).Nodup) :
    ((setKey a b l).map Prod.fst).Nodup := by
  rw [setKey, List.map_append]
  refine List.Nodup.append (nodup_keys_eraseKey h) (List.nodup_singleton _) ?_
  intro x hx hxs
  obtain rfl : x = a := by simpa using hxs
  exact not_mem_keys_eraseKey _ l hx

theorem eraseKey_idem {α β : Type} [BEq α] (a : α) (l : List (α × β)) :
    eraseKey a (eraseKey a l) = eraseKey a l := by
  simp [eraseKey, List.filter_filter]

theorem eraseKey_setKey_self {α β : Type} [BEq α] [LawfulBEq α]
    (a : α) (b : β) (l : List (α × β)) :
    eraseKey a (setKey a b l) = eraseKey a l := by
  rw [setKey, eraseKey, List.filter_append]
  have h1 : List.filter (fun p => !(p.1 == a)) [(a, b)] = [] := by
    simp [List.filter]
  rw [h1, List.append_nil]
  exact eraseKey_idem a l

theorem setKey_eraseKey_self {α β : Type} [BEq α] (a : α) (b : β)
    (l : List (α × β)) : setKey a b (eraseKey a l) = setKey a b l := by
  rw [setKey, setKey, eraseKey_idem]

theorem length_setKey {α β : Type} [BEq α] (a : α) (b : β) (l : List (α × β)) :
    (setKey a b l).length = (eraseKey a l).length + 1 := by
  simp [setKey]

/-! Truthiness and filter-guard lemmas. -/

theorem getTruthy_eq_some {o : Option String} {s : String} :
    getTruthy o = some s ↔ o = some s ∧ s ≠ "" := by
  cases o with
  | none => simp [getTruthy]
  | some t =>
    by_cases h : t = ""
    · subst h
      simp [getTruthy]
      rintro rfl
      simp
    · simp [getTruthy, h]
      rintro rfl
      simpa using h

theorem getTruthy_eq_none {o : Option String} :
    getTruthy o = none ↔ o = none ∨ o = some "" := by
  cases o with
  | none => simp [getTruthy]
  | some t =>
    by_cases h : t = "" <;> simp [getTruthy, h]

theorem strTruthy_of_some {u : String} (h : u ≠ "") :
    strTruthy (some u) = true := by
  simp [strTruthy, getTruthy, h]

theorem ownerReject_eq_false {fu u : Option String}
    (h : ownerReject fu u = false) (ht : strTruthy fu = true) : u = fu := by
  rw [ownerReject, ht, Bool.true_and, decide_eq_false_iff_not, not_not] at h
  exact h

theorem catReject_eq_false {cats : List String} {c : Option String}
    (h : catReject (some cats) c = false) (hne : cats ≠ []) :
    c ∈ cats.map some := by
  cases cats with
  | nil => exact absurd rfl hne
  | cons a t =>
    by_cases hc : c ∈ (a :: t).map some
    · exact hc
    · exfalso
      cases hd : decide (c ∈ (a :: t).map some) with
      | false => rw [catReject, List.isEmpty_cons, hd] at h; simp at h
      | true => exact hc (of_decide_eq_true hd)

/-! Search-loop lemmas. -/

theorem searchLoop_nil (k : Nat) (fu : Option String) (fc : Option (List String))
    (ms : ℚ) (tab : List (Int × Metadata)) (seen : List String)
    (acc : List SearchResult) : searchLoop k fu fc ms tab [] seen acc = acc := rfl

theorem searchLoop_cons (k : Nat) (fu : Option String) (fc : Option (List String))
    (ms : ℚ) (tab : List (Int × Metadata)) (dist : ℚ) (fid : Int)
    (rest : List (ℚ × Int)) (seen : List String) (acc : List SearchResult) :
    searchLoop k fu fc ms tab ((dist, fid) :: rest) seen acc =
      match candDecision fu fc ms tab seen dist fid with
      | none => searchLoop k fu fc ms tab rest seen acc
      | some (iid, md) =>
        let results2 := acc ++ [⟨iid, dist, md⟩]
        if k ≤ results2.length then results2
        else searchLoop k fu fc ms tab rest (iid :: seen) results2 := rfl

theorem candDecision_some {fu : Option String} {fc : Option (List String)}
    {ms : ℚ} {tab : List (Int × Metadata)} {seen : List String} {dist : ℚ}
    {fid : Int} {iid : String} {md : Metadata}
    (h : candDecision fu fc ms tab seen dist fid = some (iid, md)) :
    lookupKey fid tab = some md ∧ getTruthy md.item_id = some iid ∧
    iid ∉ seen ∧ ownerReject fu md.user_id = false ∧
    catReject fc md.category = false ∧ ms ≤ dist := by
  rw [candDecision] at h
  split at h
  · exact absurd h (by simp)
  · split at h
    · exact absurd h (by simp)
    · rename_i md' htab
      split at h
      · exact absurd h (by simp)
      · rename_i iid' hgt
        split at h
        · exact absurd h (by simp)
        · rename_i h2
          split at h
          · exact absurd h (by simp)
          · rename_i h3
            split at h
            · exact absurd h (by simp)
            · rename_i h4
              split at h
              · exact absurd h (by simp)
              · rename_i h5
                have h6 : (iid', md') = (iid, md) := by injection h
                injection h6 with h7 h8
                subst h7
                subst h8
                exact ⟨htab, hgt, h2, Bool.of_not_eq_true h3,
                       Bool.of_not_eq_true h4, le_of_not_lt h5⟩

theorem searchLoop_sound (k : Nat) (fu : Option String)
    (fc : Option (List String)) (ms : ℚ) (tab : List (Int × Metadata)) :
    ∀ (cands : List (ℚ × Int)) (seen : List String) (acc : List SearchResult),
      (∀ r ∈ acc, ResultOk fu fc ms tab r) →
      (∀ r ∈ acc, r.item_id ∈ seen) →
      ((acc.map SearchResult.item_id).Nodup) →
      (∀ r ∈ searchLoop k fu fc ms tab cands seen acc, ResultOk fu fc ms tab r) ∧
      ((searchLoop k fu fc ms tab cands seen acc).map SearchResult.item_id).Nodup ∧
      (∀ r ∈ searchLoop k fu fc ms tab cands seen acc, r ∈ acc ∨ r.item_id ∉ seen) := by
  intro cands
  induction cands with
  | nil =>
    intro seen acc h1 h2 h3
    rw [searchLoop_nil]
    exact ⟨h1, h3, fun r hr => Or.inl hr⟩
  | cons c rest ih =>
    intro seen acc h1 h2 h3
    obtain ⟨dist, fid⟩ := c
    rw [searchLoop_cons]
    cases hcd : candDecision fu fc ms tab seen dist fid with
    | none => exact ih seen acc h1 h2 h3
    | some p =>
      obtain ⟨iid, md⟩ := p
      obtain ⟨htab, hgt, hsn, how, hcat, hms⟩ := candDecision_some hcd
      obtain ⟨hmdid, hne⟩ := getTruthy_eq_some.mp hgt
      have hr0 : ResultOk fu fc ms tab ⟨iid, dist, md⟩ :=
        ⟨hne, hmdid, ⟨fid, htab⟩,
         fun ht => ownerReject_eq_false how ht, hcat, hms⟩
      have hnotin : iid ∉ acc.map SearchResult.item_id := by
        intro hin
        obtain ⟨r, hr, hri⟩ := List.mem_map.mp hin
        exact hsn (hri ▸ h2 r hr)
      have h1' : ∀ r ∈ acc ++ [(⟨iid, dist, md⟩ : SearchResult)],
          ResultOk fu fc ms tab r := by
        intro r hr
        rcases List.mem_append.mp hr with hr | hr
        · exact h1 r hr
        · obtain rfl : r = ⟨iid, dist, md⟩ := by simpa using hr
          exact hr0
      have h3' : ((acc ++ [(⟨iid, dist, md⟩ : SearchResult)]).map
          SearchResult.item_id).Nodup := by
        rw [List.map_append]
        refine List.Nodup.append h3 (List.nodup_singleton _) ?_
        intro x hx hxs
        obtain rfl : x = iid := by simpa using hxs
        exact hnotin hx
      have hmemconc : ∀ r ∈ acc ++ [(⟨iid, dist, md⟩ : SearchResult)],
          r ∈ acc ∨ r.item_id ∉ seen := by
        intro r hr
        rcases List.mem_append.mp hr with hr | hr
        · exact Or.inl hr
        · obtain rfl : r = ⟨iid, dist, md⟩ := by simpa using hr
          exact Or.inr hsn
      by_cases hk : k ≤ (acc ++ [(⟨iid, dist, md⟩ : SearchResult)]).length
      · simp only [if_pos hk]
        exact ⟨h1', h3', hmemconc⟩
      · simp only [if_neg hk]
        have h2' : ∀ r ∈ acc ++ [(⟨iid, dist, md⟩ : SearchResult)],
            r.item_id ∈ iid :: seen := by
          intro r hr
          rcases List.mem_append.mp hr with hr | hr
          · exact List.mem_cons_of_mem _ (h2 r hr)
          · obtain rfl : r = ⟨iid, dist, md⟩ := by simpa using hr
            exact List.mem_cons_self _ _
        obtain ⟨g1, g2, g3⟩ := ih (iid :: seen) _ h1' h2' h3'
        refine ⟨g1, g2, ?_⟩
        intro r hr
        rcases g3 r hr with hg | hg
        · exact hmemconc r hg
        · exact Or.inr fun hrs => hg (List.mem_cons_of_mem _ hrs)

theorem searchLoop_length (k : Nat) (fu : Option String)
    (fc : Option (List String)) (ms : ℚ) (tab : List (Int × Metadata)) :
    ∀ (cands : List (ℚ × Int)) (seen : List String) (acc : List SearchResult),
      (searchLoop k fu fc ms tab cands seen acc).length ≤ max k (acc.length + 1) := by
  intro cands
  induction cands with
  | nil =>
    intro seen acc
    rw [searchLoop_nil]
    exact le_max_of_le_right (Nat.le_succ _)
  | cons c rest ih =>
    intro seen acc
    obtain ⟨dist, fid⟩ := c
    rw [searchLoop_cons]
    cases hcd : candDecision fu fc ms tab seen dist fid with
    | none => exact ih seen acc
    | some p =>
      obtain ⟨iid, md⟩ := p
      by_cases hk : k ≤ (acc ++ [(⟨iid, dist, md⟩ : SearchResult)]).length
      · simp only [if_pos hk]
        rw [List.length_append]
        exact le_max_of_le_right (by simp)
      · simp only [if_neg hk]
        have hlen : (acc ++ [(⟨iid, dist, md⟩ : SearchResult)]).length
            = acc.length + 1 := by simp
        have hbound := ih (iid :: seen) (acc ++ [⟨iid, dist, md⟩])
        rw [hlen] at hbound hk
        have hk' : acc.length + 2 ≤ k := Nat.succ_le_of_lt (Nat.lt_of_not_le hk)
        calc (searchLoop k fu fc ms tab rest (iid :: seen)
                (acc ++ [⟨iid, dist, md⟩])).length
            ≤ max k (acc.length + 1 + 1) := hbound
          _ = k := max_eq_left hk'
          _ ≤ max k (acc.length + 1) := le_max_left _ _

theorem searchLoop_empty_tab (k : Nat) (fu : Option String)
    (fc : Option (List String)) (ms : ℚ) :
    ∀ (cands : List (ℚ × Int)) (seen : List String) (acc : List SearchResult),
      searchLoop k fu fc ms [] cands seen acc = acc := by
  intro cands
  induction cands with
  | nil => intro seen acc; rfl
  | cons c rest ih =>
    intro seen acc
    obtain ⟨dist, fid⟩ := c
    have hcd : candDecision fu fc ms [] seen dist fid = none := by
      rw [candDecision]
      by_cases h1 : fid = -1
      · rw [if_pos h1]
      · rw [if_neg h1, lookupKey_nil]
    rw [searchLoop_cons, hcd]
    exact ih seen acc

/-- Soundness of `search` as a whole: every returned result satisfies
`ResultOk` over the store's metadata dict and differs from any supplied
`exclude_item_id`, and the returned item ids are duplicate-free. -/
theorem search_sound (sqrt : ℚ → ℚ) (m : FAISSManager) (q : Vec) (k : Nat)
    (fu : Option String) (fc : Option (List String)) (ex : Option String)
    (ms : ℚ) :
    (∀ r ∈ search sqrt m q k fu fc ex ms,
        ResultOk fu fc ms m.metadata r ∧ ∀ e, ex = some e → r.item_id ≠ e) ∧
    ((search sqrt m q k fu fc ex ms).map SearchResult.item_id).Nodup := by
  rw [search]
  by_cases h0 : m.index.length = 0
  · simp [h0]
  · rw [if_neg h0]
    obtain ⟨g1, g2, g3⟩ := searchLoop_sound k fu fc ms m.metadata
      (indexSearch m.index (normalizeWith sqrt q)
        (if min (k * 5) m.index.length = 0 then min 100 m.index.length
         else min (k * 5) m.index.length))
      (match getTruthy ex with
       | some e => [e]
       | none => [])
      [] (by simp) (by simp) (by simp)
    refine ⟨?_, g2⟩
    intro r hr
    refine ⟨g1 r hr, ?_⟩
    intro e he hre
    rcases g3 r hr with hg | hg
    · simp at hg
    · cases hgt : getTruthy ex with
      | some e' =>
        rw [hgt] at hg
        obtain ⟨hex, hne⟩ := getTruthy_eq_some.mp hgt
        rw [he] at hex
        obtain rfl : e = e' := by injection hex
        exact hg (hre ▸ List.mem_cons_self _ _)
      | none =>
        rcases getTruthy_eq_none.mp hgt with hn | hn
        · rw [he] at hn; exact absurd hn (by simp)
        · rw [he] at hn
          obtain rfl : e = "" := by injection hn
          exact (g1 r hr).1 hre

/-! Store-mutation lemmas. -/

theorem remove_by_faiss_id_live {m : FAISSManager} {X : String} {fid : Int}
    (hInv : Inv m) (h : lookupKey X m.item_id_to_faiss_id = some fid) :
    remove_by_faiss_id m fid = some (afterErase m X fid) := by
  obtain ⟨hn1, hn2, hA, hB⟩ := hInv
  have hmem : (X, fid) ∈ m.item_id_to_faiss_id := lookupKey_mem h
  have hA' := hA _ hmem
  cases hmd : lookupKey fid m.metadata with
  | none => rw [hmd] at hA'; exact absurd hA' (by simp)
  | some md =>
    rw [hmd] at hA'
    have hid : md.item_id = some X := by simpa using hA'
    have hBq := hB _ (lookupKey_mem hmd)
    have hXne : X ≠ "" := by
      intro hX
      apply hBq.1
      rw [hid, hX]
      simp [getTruthy]
    have hgt : getTruthy md.item_id = some X := getTruthy_eq_some.mpr ⟨hid, hXne⟩
    simp only [remove_by_faiss_id, hmd, hgt, h, afterErase]

theorem no_item_after_erase {m : FAISSManager} {X : String} {fid : Int}
    (hInv : Inv m) (h : lookupKey X m.item_id_to_faiss_id = some fid) :
    ∀ q ∈ eraseKey fid m.metadata, q.2.item_id ≠ some X := by
  obtain ⟨hn1, hn2, hA, hB⟩ := hInv
  intro q hq hqX
  obtain ⟨hqm, hqne⟩ := mem_eraseKey.mp hq
  have hBq := hB _ hqm
  rw [hqX] at hBq
  have hlq : lookupKey X m.item_id_to_faiss_id = some q.1 := by
    simpa using hBq.2
  rw [h] at hlq
  have : fid = q.1 := by injection hlq
  exact hqne this.symm

theorem afterErase_WF {m : FAISSManager} {X : String} {fid : Int}
    (hWF : WF m) (h : lookupKey X m.item_id_to_faiss_id = some fid) :
    WF (afterErase m X fid) := by
  obtain ⟨⟨hn1, hn2, hA, hB⟩, hF⟩ := hWF
  refine ⟨⟨nodup_keys_eraseKey hn1, nodup_keys_eraseKey hn2, ?_, ?_⟩, ?_⟩
  · intro p hp
    obtain ⟨hpm, hpne⟩ := mem_eraseKey.mp hp
    have hAp := hA _ hpm
    have hp2 : p.2 ≠ fid := by
      intro hpe
      have hAx := hA _ (lookupKey_mem h)
      rw [hpe] at hAp
      rw [hAp] at hAx
      have : p.1 = X := by injection hAx
      exact hpne this
    show (lookupKey p.2 (eraseKey fid m.metadata)).bind Metadata.item_id = some p.1
    rw [lookupKey_eraseKey_ne hp2]
    exact hAp
  · intro q hq
    obtain ⟨hqm, hqne⟩ := mem_eraseKey.mp hq
    have hBq := hB _ hqm
    refine ⟨hBq.1, ?_⟩
    have hkey : q.2.item_id.getD ("") ≠ X := by
      intro hk
      rw [hk] at hBq
      have hlq := hBq.2
      rw [h] at hlq
      have : fid = q.1 := by injection hlq
      exact hqne this.symm
    show lookupKey (q.2.item_id.getD ("")) (eraseKey X m.item_id_to_faiss_id) = some q.1
    rw [lookupKey_eraseKey_ne hkey]
    exact hBq.2
  · intro q hq
    exact hF _ (mem_eraseKey.mp hq).1

theorem add_fresh_WF {sqrt : ℚ → ℚ} {m : FAISSManager} {iid : String}
    {md : Metadata} {emb : Vec}
    (hWF : WF m) (hgt : getTruthy md.item_id = some iid)
    (hl : lookupKey iid m.item_id_to_faiss_id = none) :
    WF { index := m.index ++ [normalizeWith sqrt emb],
         metadata := setKey m.next_id md m.metadata,
         item_id_to_faiss_id := setKey iid m.next_id m.item_id_to_faiss_id,
         next_id := m.next_id + 1 } := by
  obtain ⟨⟨hn1, hn2, hA, hB⟩, hF⟩ := hWF
  obtain ⟨hmdid, hne⟩ := getTruthy_eq_some.mp hgt
  refine ⟨⟨nodup_keys_setKey hn1, nodup_keys_setKey hn2, ?_, ?_⟩, ?_⟩
  · intro p hp
    rcases mem_setKey.mp hp with ⟨hpm, hpi⟩ | rfl
    · have hAp := hA _ hpm
      have hp2 : p.2 ≠ m.next_id := by
        intro hpe
        rw [hpe] at hAp
        cases hmd0 : lookupKey m.next_id m.metadata with
        | none => rw [hmd0] at hAp; exact absurd hAp (by simp)
        | some md0 =>
          have := hF _ (lookupKey_mem hmd0)
          exact absurd this (by simp)
      show (lookupKey p.2 (setKey m.next_id md m.metadata)).bind Metadata.item_id
          = some p.1
      rw [lookupKey_setKey_ne hp2]
      exact hAp
    · show (lookupKey m.next_id (setKey m.next_id md m.metadata)).bind
          Metadata.item_id = some iid
      rw [lookupKey_setKey_self]
      simpa using hmdid
  · intro q hq
    rcases mem_setKey.mp hq with ⟨hqm, hqi⟩ | rfl
    · have hBq := hB _ hqm
      refine ⟨hBq.1, ?_⟩
      have hkey : q.2.item_id.getD ("") ≠ iid := by
        intro hk
        have hlq := hBq.2
        rw [hk, hl] at hlq
        exact absurd hlq (by simp)
      show lookupKey (q.2.item_id.getD (""))
          (setKey iid m.next_id m.item_id_to_faiss_id) = some q.1
      rw [lookupKey_setKey_ne hkey]
      exact hBq.2
    · refine ⟨by rw [hgt]; simp, ?_⟩
      show lookupKey (md.item_id.getD (""))
          (setKey iid m.next_id m.item_id_to_faiss_id) = some m.next_id
      rw [hmdid, Option.getD_some, lookupKey_setKey_self]
  · intro q hq
    rcases mem_setKey.mp hq with ⟨hqm, _⟩ | rfl
    · show q.1 < m.next_id + 1
      exact lt_trans (hF _ hqm) (by omega)
    · show m.next_id < m.next_id + 1
      omega

theorem add_item_eq {sqrt : ℚ → ℚ} {m : FAISSManager} {d : Disk} {emb : Vec}
    {md : Metadata} {iid : String}
    (hInv : Inv m) (hgt : getTruthy md.item_id = some iid) :
    add_item sqrt m d emb md =
      (.ok m.next_id, afterAdd sqrt m iid md emb,
       save_index (afterAdd sqrt m iid md emb) d) := by
  cases hl : lookupKey iid m.item_id_to_faiss_id with
  | none =>
    simp only [add_item, hgt, hl, afterAdd, metaAfterAdd]
  | some fid0 =>
    simp only [add_item, hgt, hl, remove_by_faiss_id_live hInv hl, afterErase,
      afterAdd, metaAfterAdd, setKey_eraseKey_self]

theorem afterAdd_WF {sqrt : ℚ → ℚ} {m : FAISSManager} {iid : String}
    {md : Metadata} {emb : Vec}
    (hWF : WF m) (hgt : getTruthy md.item_id = some iid) :
    WF (afterAdd sqrt m iid md emb) := by
  cases hl : lookupKey iid m.item_id_to_faiss_id with
  | none =>
    have hfresh := @add_fresh_WF sqrt m iid md emb hWF hgt hl
    simpa [afterAdd, metaAfterAdd, hl] using hfresh
  | some fid0 =>
    have hE := afterErase_WF hWF hl
    have hl' : lookupKey iid (afterErase m iid fid0).item_id_to_faiss_id = none := by
      simp only [afterErase]
      exact lookupKey_eraseKey_self _ _
    have hfresh := @add_fresh_WF sqrt (afterErase m iid fid0) iid md emb hE hgt hl'
    simp only [afterErase] at hfresh
    simpa [afterAdd, metaAfterAdd, hl, setKey_eraseKey_self] using hfresh

/-! Claim theorems. -/

/-- C1: every result returned by `search` satisfies all active filters
simultaneously — when `filter_user_id` is specified (truthy) the result's
owner equals it, when `filter_categories` is specified (nonempty) the
result's category is a member of that set, the result's similarity is at
least `min_similarity`, the result's item identifier differs from any given
`exclude_item_id` — and no item identifier appears more than once in the
returned list.  Quantified over every store state and every combination of
filter arguments (and every square-root function). -/
theorem C1_filter_conjunction (sqrt : ℚ → ℚ) (m : FAISSManager) (q : Vec)
    (k : Nat) (fu : Option String) (fc : Option (List String))
    (ex : Option String) (ms : ℚ) :
    (∀ r ∈ search sqrt m q k fu fc ex ms,
        (∀ u, fu = some u → u ≠ "" → r.metadata.user_id = some u) ∧
        (∀ cats, fc = some cats → cats ≠ [] →
            ∃ c ∈ cats, r.metadata.category = some c) ∧
        ms ≤ r.similarity ∧
        (∀ e, ex = some e → r.item_id ≠ e)) ∧
    ((search sqrt m q k fu fc ex ms).map SearchResult.item_id).Nodup := by
  obtain ⟨h1, h2⟩ := search_sound sqrt m q k fu fc ex ms
  refine ⟨?_, h2⟩
  intro r hr
  obtain ⟨⟨hne, hmdid, hsrc, how, hcat, hsim⟩, hex⟩ := h1 r hr
  refine ⟨?_, ?_, hsim, hex⟩
  · intro u hu hu'
    have ht : strTruthy fu = true := by
      rw [hu]; exact strTruthy_of_some hu'
    have := how ht
    rw [hu] at this
    exact this
  · intro cats hc hc'
    rw [hc] at hcat
    have hmem := catReject_eq_false hcat hc'
    obtain ⟨c, hcm, hce⟩ := List.mem_map.mp hmem
    exact ⟨c, hcm, hce.symm⟩

/-- C2 (amended): for every store state, query vector, filter combination
and every `N ≥ 1`, the list returned by `search` with `k = N` has length at
most `N`.  (For `N = 0` the source's result-count check runs only after a
candidate has been appended, so one result can be returned; see the
counterexample.) -/
theorem C2_k_bound (sqrt : ℚ → ℚ) (m : FAISSManager) (q : Vec) (N : Nat)
    (fu : Option String) (fc : Option (List String)) (ex : Option String)
    (ms : ℚ) (h : 1 ≤ N) :
    (search sqrt m q N fu fc ex ms).length ≤ N := by
  rw [search]
  by_cases h0 : m.index.length = 0
  · simp [h0]
  · rw [if_neg h0]
    have hb := searchLoop_length N fu fc ms m.metadata
      (indexSearch m.index (normalizeWith sqrt q)
        (if min (N * 5) m.index.length = 0 then min 100 m.index.length
         else min (N * 5) m.index.length))
      (match getTruthy ex with
       | some e => [e]
       | none => []) []
    exact le_trans hb (le_of_eq (max_eq_left h))

unseal Rat.mul Rat.add Rat.inv Rat.sub in
/-- C2 counterexample: on a populated one-item store, `search` with `k = 0`
returns one result, so its length exceeds 0 — the claim fails at `N = 0`
because `search_k` falls back to `min(100, ntotal)` and the
`len(results) >= k` check runs only after an append. -/
theorem C2_counterexample :
    ¬ ((search sqrtId storeOne [1] 0 none none none 0).length ≤ 0) := by decide

/-- C6: `add_item` called with metadata whose `item_id` is missing or empty
fails with the `InvalidInput` error, and the rejection happens before any
mutation: the returned in-memory state (index, metadata dict, reverse dict,
slot counter) is the argument state unchanged, and the disk is untouched
(no persistence write). -/
theorem C6_invalid_input (sqrt : ℚ → ℚ) (m : FAISSManager) (d : Disk)
    (emb : Vec) (md : Metadata)
    (h : md.item_id = none ∨ md.item_id = some "") :
    add_item sqrt m d emb md = (.error .invalidInput, m, d) := by
  have hgt : getTruthy md.item_id = none := getTruthy_eq_none.mpr h
  simp only [add_item, hgt]

/-- C7 (amended): on startup load with the vector artifact present, an
*unreadable* metadata artifact makes the store fall back to the completely
empty store (the caught exception resets index, both dicts and the
counter); a *missing* metadata artifact leaves the two dicts empty but
keeps the loaded vector index and sets the slot counter to its size (all
loaded slots orphaned). -/
theorem C7_load_fallback (vecs : List Vec) :
    load_index { indexFile := some vecs, metaFile := some none } = emptyManager ∧
    (load_index { indexFile := some vecs, metaFile := none }).metadata = [] ∧
    (load_index { indexFile := some vecs, metaFile := none }).item_id_to_faiss_id
      = [] ∧
    (load_index { indexFile := some vecs, metaFile := none }).index = vecs ∧
    (load_index { indexFile := some vecs, metaFile := none }).next_id
      = (vecs.length : Int) :=
  ⟨rfl, rfl, rfl, rfl, rfl⟩

/-- C7 counterexample: with the vector artifact holding one vector and the
metadata artifact missing, the loaded store is *not* the completely empty
store — the vector index is nonempty and the slot counter is 1, only the
two dicts are empty. -/
theorem C7_counterexample :
    load_index diskMissingMeta ≠ emptyManager ∧
    (load_index diskMissingMeta).index = [[1]] ∧
    (load_index diskMissingMeta).next_id = 1 ∧
    (load_index diskMissingMeta).metadata = [] ∧
    (load_index diskMissingMeta).item_id_to_faiss_id = [] := by decide

/-- C9: for every store state with zero live entries (empty metadata dict —
including stores whose every entry was removed so that orphaned vector
slots remain physically present), `search` returns the empty list, for
every query vector, every `k` and every filter combination; no error path
is taken (the embedding is total). -/
theorem C9_zero_live (sqrt : ℚ → ℚ) (m : FAISSManager) (q : Vec) (k : Nat)
    (fu : Option String) (fc : Option (List String)) (ex : Option String)
    (ms : ℚ) (h : m.metadata = []) :
    search sqrt m q k fu fc ex ms = [] := by
  rw [search]
  by_cases h0 : m.index.length = 0
  · rw [if_pos h0]
  · rw [if_neg h0, h]
    exact searchLoop_empty_tab _ _ _ _ _ _ _

/-- C10: `search` never mutates the store: for every store state, disk
state and argument combination, the state-threaded embedding of the method
returns the in-memory store and the disk identical to its inputs (the
method body assigns no field and never calls `_save_index`), while
computing exactly the pure search results. -/
theorem C10_search_frame (sqrt : ℚ → ℚ) (m : FAISSManager) (d : Disk)
    (q : Vec) (k : Nat) (fu : Option String) (fc : Option (List String))
    (ex : Option String) (ms : ℚ) :
    (searchM sqrt m d q k fu fc ex ms).2.1 = m ∧
    (searchM sqrt m d q k fu fc ex ms).2.2 = d ∧
    (searchM sqrt m d q k fu fc ex ms).1 = search sqrt m q k fu fc ex ms :=
  ⟨rfl, rfl, rfl⟩

theorem getD_append_pair (l : List Vec) (a b dflt : Vec) :
    (l ++ [a, b]).getD (l.length + 1) dflt = b := by
  induction l with
  | nil => rfl
  | cons x t ih => simpa using ih

/-- C4: `remove_item X` returns `False` (with state and disk untouched)
when `X` has no live slot; after a successful removal from a consistent
store, no `search` — for any query vector, `k` and filter combination —
returns a result with item identifier `X`, and a second `remove_item X`
returns `False` leaving the state unchanged. -/
theorem C4_remove_terminal (m : FAISSManager) (d : Disk) (X : String)
    (hInv : Inv m) :
    (lookupKey X m.item_id_to_faiss_id = none →
        remove_item m d X = (.ok false, m, d)) ∧
    (∀ m1 d1, remove_item m d X = (.ok true, m1, d1) →
        (∀ sqrt q k fu fc ex ms, ∀ r ∈ search sqrt m1 q k fu fc ex ms,
            r.item_id ≠ X) ∧
        remove_item m1 d1 X = (.ok false, m1, d1)) := by
  constructor
  · intro h
    simp only [remove_item, h]
  · intro m1 d1 heq
    cases hl : lookupKey X m.item_id_to_faiss_id with
    | none =>
      simp only [remove_item, hl, Prod.mk.injEq] at heq
      exact absurd heq.1 (by simp)
    | some fid =>
      simp only [remove_item, hl, remove_by_faiss_id_live hInv hl,
        Prod.mk.injEq] at heq
      obtain ⟨-, hm1, hd1⟩ := heq
      subst hm1
      constructor
      · intro sqrt q k fu fc ex ms r hr hrX
        obtain ⟨⟨hne, hmdid, ⟨fid', hfid⟩, -, -, -⟩, -⟩ :=
          (search_sound sqrt (afterErase m X fid) q k fu fc ex ms).1 r hr
        have hmem : (fid', r.metadata) ∈ eraseKey fid m.metadata :=
          lookupKey_mem hfid
        apply no_item_after_erase hInv hl _ hmem
        rw [hmdid, hrX]
      · have hnone :
            lookupKey X (afterErase m X fid).item_id_to_faiss_id = none := by
          simp only [afterErase]
          exact lookupKey_eraseKey_self _ _
        simp only [remove_item, hnone]

/-- C5: mutual consistency of the reverse dict and the metadata dict
(together with slot-counter freshness, which a well-formed store also
maintains and which freshness of the appended slot id requires) is
preserved by every successful `add_item` and by every `remove_item` that
returns without raising, from any well-formed store state. -/
theorem C5_table_consistency (sqrt : ℚ → ℚ) (m : FAISSManager) (d : Disk)
    (emb : Vec) (md : Metadata) (item_id : String) (hWF : WF m) :
    (∀ fid m' d', add_item sqrt m d emb md = (.ok fid, m', d') → WF m') ∧
    (∀ b m' d', remove_item m d item_id = (.ok b, m', d') → WF m') := by
  constructor
  · intro fid m' d' heq
    cases hgt : getTruthy md.item_id with
    | none =>
      simp only [add_item, hgt, Prod.mk.injEq] at heq
      exact absurd heq.1 (by simp)
    | some iid =>
      rw [add_item_eq hWF.1 hgt] at heq
      simp only [Prod.mk.injEq] at heq
      obtain ⟨-, hm, -⟩ := heq
      exact hm ▸ afterAdd_WF hWF hgt
  · intro b m' d' heq
    cases hl : lookupKey item_id m.item_id_to_faiss_id with
    | none =>
      simp only [remove_item, hl, Prod.mk.injEq] at heq
      obtain ⟨-, hm, -⟩ := heq
      exact hm ▸ hWF
    | some fid =>
      simp only [remove_item, hl, remove_by_faiss_id_live hWF.1 hl,
        Prod.mk.injEq] at heq
      obtain ⟨-, hm, -⟩ := heq
      exact hm ▸ afterErase_WF hWF hl

/-- C3: from a well-formed, in-sync store, adding the same (truthy) item
identifier `X` twice with different vectors succeeds both times; the second
add first logically removes the first add's slot (its slot id is no longer
in the metadata dict) and assigns the next sequential slot id; afterwards
exactly one live metadata entry carries `X` — the new slot, holding the
second metadata — the reverse dict maps `X` to the new slot, the live-item
count equals the count after the first add, and the new slot's physical
position holds the (normalized) second vector. -/
theorem C3_readd (sqrt : ℚ → ℚ) (m : FAISSManager) (d : Disk) (v1 v2 : Vec)
    (md1 md2 : Metadata) (X : String)
    (hWF : WF m) (hsync : m.next_id = (m.index.length : Int))
    (hX1 : getTruthy md1.item_id = some X) (hX2 : getTruthy md2.item_id = some X)
    (_hvne : v1 ≠ v2) :
    ∀ r1 m1 d1, add_item sqrt m d v1 md1 = (r1, m1, d1) →
    ∀ r2 m2 d2, add_item sqrt m1 d1 v2 md2 = (r2, m2, d2) →
      r1 = .ok m.next_id ∧
      r2 = .ok m1.next_id ∧
      m1.next_id = m.next_id + 1 ∧
      m1.next_id = ((m.index.length : Int) + 1) ∧
      lookupKey X m2.item_id_to_faiss_id = some m1.next_id ∧
      (m1.next_id, md2) ∈ m2.metadata ∧
      (∀ q ∈ m2.metadata, q.2.item_id = some X → q = (m1.next_id, md2)) ∧
      lookupKey m.next_id m2.metadata = none ∧
      m2.item_id_to_faiss_id.length = m1.item_id_to_faiss_id.length ∧
      m2.index = m.index ++ [normalizeWith sqrt v1, normalizeWith sqrt v2] ∧
      m2.index.getD (m.index.length + 1) [] = normalizeWith sqrt v2 := by
  intro r1 m1 d1 heq1 r2 m2 d2 heq2
  rw [add_item_eq hWF.1 hX1] at heq1
  simp only [Prod.mk.injEq] at heq1
  obtain ⟨hr1, hm1, -⟩ := heq1
  subst hm1
  have hWF1 : WF (afterAdd sqrt m X md1 v1) := afterAdd_WF hWF hX1
  rw [add_item_eq hWF1.1 hX2] at heq2
  simp only [Prod.mk.injEq] at heq2
  obtain ⟨hr2, hm2, -⟩ := heq2
  subst hm2
  have hlook1 : lookupKey X (afterAdd sqrt m X md1 v1).item_id_to_faiss_id
      = some m.next_id := by
    simp only [afterAdd]
    exact lookupKey_setKey_self _ _ _
  have hmeta2 : metaAfterAdd (afterAdd sqrt m X md1 v1) X md2 =
      setKey (m.next_id + 1) md2
        (eraseKey m.next_id (afterAdd sqrt m X md1 v1).metadata) := by
    simp only [metaAfterAdd, hlook1]
    rfl
  have hner : m.next_id ≠ m.next_id + 1 := by omega
  refine ⟨hr1.symm, hr2.symm, rfl, ?_, ?_, ?_, ?_, ?_, ?_, ?_, ?_⟩
  · show m.next_id + 1 = ((m.index.length : Int)) + 1
    rw [hsync]
  · show lookupKey X (setKey X (m.next_id + 1)
        (setKey X m.next_id m.item_id_to_faiss_id)) = some (m.next_id + 1)
    exact lookupKey_setKey_self _ _ _
  · show (m.next_id + 1, md2) ∈ metaAfterAdd (afterAdd sqrt m X md1 v1) X md2
    rw [hmeta2]
    exact mem_setKey.mpr (Or.inr rfl)
  · intro q hq hqX
    have hq' : q ∈ metaAfterAdd (afterAdd sqrt m X md1 v1) X md2 := hq
    rw [hmeta2] at hq'
    rcases mem_setKey.mp hq' with ⟨hqe, hqne⟩ | hqv
    · exact absurd hqX (no_item_after_erase hWF1.1 hlook1 q hqe)
    · exact hqv
  · show lookupKey m.next_id (metaAfterAdd (afterAdd sqrt m X md1 v1) X md2)
        = none
    rw [hmeta2, lookupKey_setKey_ne hner, lookupKey_eraseKey_self]
  · show (setKey X (m.next_id + 1)
        (setKey X m.next_id m.item_id_to_faiss_id)).length
      = (setKey X m.next_id m.item_id_to_faiss_id).length
    rw [length_setKey, eraseKey_setKey_self, length_setKey]
  · show (m.index ++ [normalizeWith sqrt v1]) ++ [normalizeWith sqrt v2]
        = m.index ++ [normalizeWith sqrt v1, normalizeWith sqrt v2]
    simp
  · show ((m.index ++ [normalizeWith sqrt v1]) ++ [normalizeWith sqrt v2]).getD
        (m.index.length + 1) [] = normalizeWith sqrt v2
    rw [List.append_assoc]
    exact getD_append_pair _ _ _ _

/-! Python-set membership lemmas and the outfit-aggregation claim. -/

theorem mem_setInsert {s : List String} {x y : String} :
    y ∈ setInsert s x ↔ y ∈ s ∨ y = x := by
  rw [setInsert]
  split_ifs with h
  · constructor
    · exact Or.inl
    · rintro (hy | rfl)
      · exact hy
      · exact h
  · simp

theorem mem_setUnion {t s : List String} {y : String} :
    y ∈ setUnion s t ↔ y ∈ s ∨ y ∈ t := by
  induction t generalizing s with
  | nil => simp [setUnion]
  | cons a t ih =>
    show y ∈ setUnion (setInsert s a) t ↔ _
    rw [ih, mem_setInsert]
    simp only [List.mem_cons]
    tauto

theorem mem_setOfList {l : List String} {y : String} :
    y ∈ setOfList l ↔ y ∈ l := by
  rw [setOfList, mem_setUnion]
  simp

theorem mem_setDiff {s t : List String} {y : String} :
    y ∈ setDiff s t ↔ y ∈ s ∧ y ∉ t := by
  simp [setDiff, List.mem_filter]

theorem mem_unionFold {base : List String} {y : String} :
    ∀ acc, y ∈ base.foldl (fun acc c => setUnion acc (categoryMapGet c)) acc ↔
      y ∈ acc ∨ ∃ c ∈ base, y ∈ categoryMapGet c := by
  induction base with
  | nil => intro acc; simp
  | cons a t ih =>
    intro acc
    rw [List.foldl_cons, ih, mem_setUnion]
    simp only [List.mem_cons]
    constructor
    · rintro ((hy | hy) | ⟨c, hc, hyc⟩)
      · exact Or.inl hy
      · exact Or.inr ⟨a, Or.inl rfl, hy⟩
      · exact Or.inr ⟨c, Or.inr hc, hyc⟩
    · rintro (hy | ⟨c, (rfl | hc), hyc⟩)
      · exact Or.inl (Or.inl hy)
      · exact Or.inl (Or.inr hyc)
      · exact Or.inr ⟨c, hc, hyc⟩

theorem mem_outfitTargets {base : List String} {y : String} :
    y ∈ outfitTargets base ↔
      (∃ c ∈ base, y ∈ categoryMapGet c) ∧ y ∉ base := by
  rw [outfitTargets, mem_setDiff, mem_unionFold]
  simp

/-- C8: the mapping returned by `get_outfit_recommendations` (when it
succeeds) has exactly the key set given by the union of the
compatibility-table entries of each base category (a category absent from
the table defaulting to top/bottom/shoes) minus the base categories; hence
no base category ever appears as a key, and every target category appears
as a key (even when its result list is empty). -/
theorem C8_outfit_category_keys (sqrt : ℚ → ℚ) (m : FAISSManager)
    (items : List ItemRecord) (embeds : List Vec) (user_id : String)
    (k_per_category : Nat) (out : List (String × List SearchResult))
    (h : get_outfit_recommendations sqrt m items embeds user_id k_per_category
        = .ok out) :
    (out.map Prod.fst).toFinset =
      ((items.map ItemRecord.category).toFinset.biUnion
          fun c => (categoryMapGet c).toFinset)
        \ (items.map ItemRecord.category).toFinset ∧
    (∀ c ∈ items.map ItemRecord.category, c ∉ out.map Prod.fst) ∧
    (∀ c ∈ ((items.map ItemRecord.category).toFinset.biUnion
          fun c => (categoryMapGet c).toFinset)
        \ (items.map ItemRecord.category).toFinset,
        ∃ l, (c, l) ∈ out) := by
  by_cases h1 : items.isEmpty = true
  · rw [get_outfit_recommendations, if_pos h1] at h
    exact absurd h (by simp)
  by_cases h2 : embeds.isEmpty = true
  · rw [get_outfit_recommendations, if_neg h1, if_pos h2] at h
    exact absurd h (by simp)
  rw [get_outfit_recommendations, if_neg h1, if_neg h2] at h
  · injection h with h
    subst h
    have hkeys : ∀ y : String,
        y ∈ (outfitTargets (setOfList (items.map ItemRecord.category))) ↔
          (∃ c ∈ items.map ItemRecord.category, y ∈ categoryMapGet c) ∧
            y ∉ items.map ItemRecord.category := by
      intro y
      rw [mem_outfitTargets]
      constructor
      · rintro ⟨⟨c, hc, hyc⟩, hy⟩
        exact ⟨⟨c, mem_setOfList.mp hc, hyc⟩, fun hm => hy (mem_setOfList.mpr hm)⟩
      · rintro ⟨⟨c, hc, hyc⟩, hy⟩
        exact ⟨⟨c, mem_setOfList.mpr hc, hyc⟩, fun hm => hy (mem_setOfList.mp hm)⟩
    refine ⟨?_, ?_, ?_⟩
    · ext c
      simp only [List.mem_toFinset, List.map_map, Finset.mem_sdiff,
        Finset.mem_biUnion, List.mem_toFinset]
      rw [show (Prod.fst ∘ fun c => (c,
          search sqrt m _ k_per_category (some user_id) (some [c]) none (1/2)))
          = fun c => c from rfl]
      rw [List.map_id']
      rw [hkeys c]
    · intro c hc hmem
      rw [List.map_map] at hmem
      rw [show (Prod.fst ∘ fun c => (c,
          search sqrt m _ k_per_category (some user_id) (some [c]) none (1/2)))
          = fun c => c from rfl] at hmem
      rw [List.map_id'] at hmem
      exact ((hkeys c).mp hmem).2 hc
    · intro c hc
      simp only [Finset.mem_sdiff, Finset.mem_biUnion, List.mem_toFinset] at hc
      obtain ⟨⟨c', hc', hcc'⟩, hcb⟩ := hc
      have hct : c ∈ outfitTargets (setOfList (items.map ItemRecord.category)) :=
        (hkeys c).mpr ⟨⟨c', hc', hcc'⟩, hcb⟩
      refine ⟨_, List.mem_map.mpr ⟨c, hct, rfl⟩⟩

/-! Concrete witnesses. -/

unseal Rat.mul Rat.add Rat.inv Rat.sub in
/-- C1 witness: on the concrete one-item store, the hit returned for a
fully filtered query satisfies every filter conjunct. -/
theorem C1_witness :
    (⟨("x"), 1, mdX⟩ : SearchResult) ∈
      search sqrtId storeOne [1] 5 (some ("u1")) (some ["top"]) (some ("z")) 0 ∧
    ((∀ u, (some ("u1") : Option String) = some u → u ≠ "" →
        mdX.user_id = some u) ∧
     (∀ cats, (some ["top"] : Option (List String)) = some cats → cats ≠ [] →
        ∃ c ∈ cats, mdX.category = some c) ∧
     (0 : ℚ) ≤ 1 ∧
     (∀ e, (some ("z") : Option String) = some e → ("x") ≠ e)) :=
  ⟨by decide,
   (C1_filter_conjunction sqrtId storeOne [1] 5 (some ("u1")) (some ["top"])
      (some ("z")) 0).1 ⟨("x"), 1, mdX⟩ (by decide)⟩

unseal Rat.mul Rat.add Rat.inv Rat.sub in
/-- C2 witness: the amended bound applied at `N = 1` on the concrete
one-item store. -/
theorem C2_witness :
    1 ≤ 1 ∧ (search sqrtId storeOne [1] 1 none none none 0).length ≤ 1 :=
  ⟨by decide, C2_k_bound sqrtId storeOne [1] 1 none none none 0 (by decide)⟩

unseal Rat.mul Rat.add Rat.inv Rat.sub in
/-- C3 witness: re-adding item `y` to the concrete one-item store with a
different vector, instantiating every hypothesis of the re-add theorem. -/
theorem C3_witness :
    WF storeOne ∧
    (∀ r1 m1 d1, add_item sqrtId storeOne disk0 [1] mdY = (r1, m1, d1) →
     ∀ r2 m2 d2, add_item sqrtId m1 d1 [2] mdY = (r2, m2, d2) →
      r1 = .ok storeOne.next_id ∧
      r2 = .ok m1.next_id ∧
      m1.next_id = storeOne.next_id + 1 ∧
      m1.next_id = ((storeOne.index.length : Int) + 1) ∧
      lookupKey ("y") m2.item_id_to_faiss_id = some m1.next_id ∧
      (m1.next_id, mdY) ∈ m2.metadata ∧
      (∀ q ∈ m2.metadata, q.2.item_id = some ("y") → q = (m1.next_id, mdY)) ∧
      lookupKey storeOne.next_id m2.metadata = none ∧
      m2.item_id_to_faiss_id.length = m1.item_id_to_faiss_id.length ∧
      m2.index = storeOne.index ++
        [normalizeWith sqrtId [1], normalizeWith sqrtId [2]] ∧
      m2.index.getD (storeOne.index.length + 1) [] = normalizeWith sqrtId [2]) :=
  ⟨by decide,
   C3_readd sqrtId storeOne disk0 [1] [2] mdY mdY ("y")
     (by decide) (by decide) (by decide) (by decide) (by decide)⟩

/-- C4 witness: removing an identifier with no live slot from the concrete
(consistent) one-item store returns `False` with state and disk
untouched. -/
theorem C4_witness :
    Inv storeOne ∧
    remove_item storeOne disk0 ("zz") = (.ok false, storeOne, disk0) :=
  ⟨by decide,
   (C4_remove_terminal storeOne disk0 ("zz") (by decide)).1 (by decide)⟩

unseal Rat.mul Rat.add Rat.inv Rat.sub in
/-- C5 witness: the concrete one-item store is well-formed and stays
well-formed after a successful `add_item`. -/
theorem C5_witness :
    WF storeOne ∧ WF (add_item sqrtId storeOne disk0 [2] mdY).2.1 :=
  ⟨by decide,
   (C5_table_consistency sqrtId storeOne disk0 [2] mdY ("zz") (by decide)).1 1
     ((add_item sqrtId storeOne disk0 [2] mdY).2.1)
     ((add_item sqrtId storeOne disk0 [2] mdY).2.2) rfl⟩

/-- C6 witness: adding with metadata lacking an `item_id` is rejected with
`InvalidInput`, leaving the concrete store and disk unchanged. -/
theorem C6_witness :
    (mdNoId.item_id = none ∨ mdNoId.item_id = some "") ∧
    add_item sqrtId storeOne disk0 [1] mdNoId
      = (.error .invalidInput, storeOne, disk0) :=
  ⟨Or.inl rfl, C6_invalid_input sqrtId storeOne disk0 [1] mdNoId (Or.inl rfl)⟩

unseal Rat.mul Rat.add Rat.inv Rat.sub in
/-- C8 witness: for one base item of category `top` over the empty store,
the outfit call succeeds and no base category is among the keys. -/
theorem C8_witness :
    get_outfit_recommendations sqrtId emptyManager c8items [[1]] ("u1") 3
      = .ok c8res ∧
    ∀ c ∈ c8items.map ItemRecord.category, c ∉ c8res.map Prod.fst :=
  ⟨rfl,
   (C8_outfit_category_keys sqrtId emptyManager c8items [[1]] ("u1") 3 c8res
      rfl).2.1⟩

/-- C9 witness: the concrete store whose only slot is orphaned has zero
live entries, and searching it yields the empty list. -/
theorem C9_witness :
    storeOrphan.metadata = [] ∧
    search sqrtId storeOrphan [1] 5 none none none 0 = [] :=
  ⟨rfl, C9_zero_live sqrtId storeOrphan [1] 5 none none none 0 rfl⟩

end FashionClip
